import Mathlib

/-!
Shallow embedding of the `camelcase` ESLint rule (lib/rules/camelcase.js).

Strings are modelled as Lean `String`; JS string primitives (`substr`,
`length`, `indexOf`, `toUpperCase`) are expressed over the character list
`String.data` (identifiers are ASCII, so code units coincide with
characters). A JS `RegExp` is modelled by its `exec` behaviour: a function
returning the leftmost match as `some (index, matchedLength)`, or `none`
when there is no match; `test` is `Option.isSome` of that.
-/

namespace Camelcase

/-- JS `value.substr(start)`: characters of `value` from offset `start` on. -/
def substrFrom (s : String) (n : Nat) : String := String.mk (s.data.drop n)

/-- JS `value.substr(0, n)`: the first `n` characters of `value`. -/
def substrTo (s : String) (n : Nat) : String := String.mk (s.data.take n)

/-- JS `String.prototype.toUpperCase`, restricted to ASCII characters. -/
def toUpperCase (s : String) : String := String.mk (s.data.map Char.toUpper)

/-- A resolved affix/exception matcher: a literal string, or a compiled
regular expression represented by its `exec` function (leftmost match as
`some (index, length)`). `processArrayOfStringOrRegExp` in the source turns
the raw option array into such values. -/
inductive Matcher where
  | str (s : String)
  | regex (exec : String → Option (Nat × Nat))

/-- `isUnderscored(name)`: the name contains an underscore
(`name.indexOf("_") > -1`) and is not its own uppercase form. -/
def isUnderscored (name : String) : Bool :=
  name.data.contains '_' && name != toUpperCase name

/-- `startAfterStringPrefix(value, prefix)`: offset into `value` following
the literal `prefix`, or `-1` when `value` does not start with it or the
match would consume the whole string. -/
def startAfterStringPrefix (value pfx : String) : Int :=
  let start : Int := pfx.length
  if start ≥ (value.length : Int) then -1
  else if substrTo value pfx.length ≠ pfx then -1
  else start

/-- `startAfterRegExpPrefix(value, prefix)`: length of the leftmost regexp
match when it starts at offset 0, else `-1`. -/
def startAfterRegExpPrefix (value : String) (exec : String → Option (Nat × Nat)) : Int :=
  match exec value with
  | none => -1
  | some (idx, len) => if idx ≠ 0 then -1 else (len : Int)

/-- `endBeforeStringSuffix(value, suffix)`: offset where the literal suffix
begins, or `-1` when `value` does not end with it or nothing would remain. -/
def endBeforeStringSuffix (value sfx : String) : Int :=
  let ends : Int := (value.length : Int) - (sfx.length : Int)
  if ends ≤ 0 then -1
  else if substrFrom value ends.toNat ≠ sfx then -1
  else ends

/-- `endBeforeRegExpSuffix(value, suffix)`: start offset of the leftmost
regexp match when that match ends exactly at the end of `value`, else `-1`. -/
def endBeforeRegExpSuffix (value : String) (exec : String → Option (Nat × Nat)) : Int :=
  match exec value with
  | none => -1
  | some (idx, len) => if (idx + len : Nat) ≠ value.length then -1 else (idx : Int)

/-- The `typeof prefix === "string"` dispatch inside `removePrefix`'s loop. -/
def startAfterMatcher (value : String) (m : Matcher) : Int :=
  match m with
  | .str p => startAfterStringPrefix value p
  | .regex ex => startAfterRegExpPrefix value ex

/-- The `typeof suffix === "string"` dispatch inside `removeSuffix`'s loop. -/
def endBeforeMatcher (value : String) (m : Matcher) : Int :=
  match m with
  | .str p => endBeforeStringSuffix value p
  | .regex ex => endBeforeRegExpSuffix value ex

/-- `removePrefix(value, allowed)`: strip at most one allowed leading affix;
the loop tries matchers in order and `break`s at the first success. -/
def removePrefix (value : String) (allowed : List Matcher) : String :=
  match allowed with
  | [] => value
  | m :: rest =>
    let start := startAfterMatcher value m
    if 0 ≤ start then substrFrom value start.toNat
    else removePrefix value rest

/-- `removeSuffix(value, allowed)`: strip at most one allowed trailing affix;
first successful matcher wins. -/
def removeSuffix (value : String) (allowed : List Matcher) : String :=
  match allowed with
  | [] => value
  | m :: rest =>
    let ends := endBeforeMatcher value m
    if 0 ≤ ends then substrTo value ends.toNat
    else removeSuffix value rest

/-- `matchExceptions(value, allowed)`: whether any matcher identifies `value`
as an exception (literal equality, or `RegExp.test`). -/
def matchExceptions (value : String) (allowed : List Matcher) : Bool :=
  match allowed with
  | [] => false
  | m :: rest =>
    (match m with
     | .str s => s == value
     | .regex ex => (ex value).isSome) || matchExceptions value rest

/-- The raw rule options (`context.options[0]`), with affix/exception arrays
already resolved into matchers. An absent field is `none`. -/
structure Options where
  properties : Option String := none
  allowedPrefixes : Option (List Matcher) := none
  allowedSuffixes : Option (List Matcher) := none
  exceptions : Option (List Matcher) := none

/-- The configuration after the option-normalisation block of `create`. -/
structure RConfig where
  properties : String
  allowedPrefixes : Option (List Matcher)
  allowedSuffixes : Option (List Matcher)
  exceptions : Option (List Matcher)

/-- `properties = options.properties || ""` followed by the fallback
`if (properties !== "always" && properties !== "never") properties = "always"`. -/
def resolveConfig (o : Options) : RConfig :=
  let p := o.properties.getD ""
  { properties := if p ≠ "always" ∧ p ≠ "never" then "always" else p
    allowedPrefixes := o.allowedPrefixes
    allowedSuffixes := o.allowedSuffixes
    exceptions := o.exceptions }

/-- `name.replace(/^_+|_+$/g, "")`: drop the leading and trailing runs of
underscores. -/
def trimUnderscores (s : String) : String :=
  String.mk (((s.data.dropWhile (· = '_')).reverse.dropWhile (· = '_')).reverse)

/-- `checkableName(name)`: underscore-trim, then strip at most one allowed
leading affix (only when `allowedPrefixes` was supplied), then at most one
allowed trailing affix (only when `allowedSuffixes` was supplied). -/
def checkableName (cfg : RConfig) (name : String) : String :=
  let name := trimUnderscores name
  let name := match cfg.allowedPrefixes with
    | none => name
    | some ps => removePrefix name ps
  match cfg.allowedSuffixes with
  | none => name
  | some ss => removeSuffix name ss

/-!
The ESTree fragment the rule's test programs live in. Every node gets an
identity (a `Nat` id assigned in pre-order); a destructuring-shorthand
property has its key and value be the *same* node, which the external
tree walker therefore visits twice — exactly the situation the rule's
`reported` deduplication exists for.
-/

/-- ESTree expression/statement shapes used by the rule. A `member` is a
non-computed `obj.prp` access; `objPat1`/`objExpr1` are an ObjectPattern /
ObjectExpression with a single property; `shorthandProp` is a Property
whose key and value are one and the same Identifier node. -/
inductive Expr where
  | ident (name : String)
  | lit
  | member (obj prp : Expr)
  | assign (left right : Expr)
  | call (callee : Expr)
  | objPat1 (p : Expr)
  | objExpr1 (p : Expr)
  | prop (key value : Expr)
  | shorthandProp (key : Expr)
  | exprStmt (e : Expr)
  | varDecl (idp init : Expr)

/-- `node.type` of an ESTree node. -/
def typeOf : Expr → String
  | .ident _ => "Identifier"
  | .lit => "Literal"
  | .member _ _ => "MemberExpression"
  | .assign _ _ => "AssignmentExpression"
  | .call _ => "CallExpression"
  | .objPat1 _ => "ObjectPattern"
  | .objExpr1 _ => "ObjectExpression"
  | .prop _ _ => "Property"
  | .shorthandProp _ => "Property"
  | .exprStmt _ => "ExpressionStatement"
  | .varDecl _ _ => "VariableDeclarator"

/-- `node.name` (non-empty only for Identifier nodes). -/
def nameOf : Expr → String
  | .ident n => n
  | _ => ""

/-- `node.property.name` of a MemberExpression (used for
`effectiveParent.left.property.name`). -/
def memberPropName : Expr → String
  | .member _ p => nameOf p
  | _ => ""

/-- Number of nodes in the subtree (a shorthand property's shared key/value
node counts once), used to pre-compute the pre-order id of a later sibling. -/
def size : Expr → Nat
  | .ident _ => 1
  | .lit => 1
  | .member o p => 1 + size o + size p
  | .assign l r => 1 + size l + size r
  | .call c => 1 + size c
  | .objPat1 p => 1 + size p
  | .objExpr1 p => 1 + size p
  | .prop k v => 1 + size k + size v
  | .shorthandProp k => 1 + size k
  | .exprStmt e => 1 + size e
  | .varDecl i j => 1 + size i + size j

/-- The fields of an ESTree node that the Identifier visitor reads through
`node.parent` / `node.parent.parent` / `effectiveParent`. Fields without
meaning for a given node type keep their defaults and are never consulted
behind the visitor's type guards. -/
structure NodeView where
  vtype : String := ""
  objType : String := ""
  objName : String := ""
  keyId : Nat := 0
  valueId : Nat := 0
  rightType : String := ""
  leftType : String := ""
  leftPropName : String := ""
  deriving Repr, DecidableEq

/-- The view of node `e` whose pre-order id is `n` (its first child, when it
has one, gets id `n + 1`). -/
def viewOf (e : Expr) (n : Nat) : NodeView :=
  match e with
  | .member o _ => { vtype := "MemberExpression", objType := typeOf o, objName := nameOf o }
  | .assign l r =>
      { vtype := "AssignmentExpression", rightType := typeOf r,
        leftType := typeOf l, leftPropName := memberPropName l }
  | .prop k _ => { vtype := "Property", keyId := n + 1, valueId := n + 1 + size k }
  | .shorthandProp _ => { vtype := "Property", keyId := n + 1, valueId := n + 1 }
  | _ => { vtype := typeOf e }

/-- What the external driver hands the rule for one visit of one Identifier
node: the node's identity and raw name, and the views of its parent and
grandparent. -/
structure VisitCtx where
  nodeId : Nat
  nodeName : String
  parent : NodeView
  grandparent : NodeView
  deriving Repr, DecidableEq

/-- Pre-order traversal of the external tree walker: assigns ids and lists
the Identifier visits in order. A shorthand property's single key/value node
is visited twice (once via the `key` visitor key, once via `value`), with
the same id and context both times. -/
def walk (e : Expr) (pv gv : NodeView) (n : Nat) : Nat × List VisitCtx :=
  let sv := viewOf e n
  match e with
  | .ident nm => (n + 1, [⟨n, nm, pv, gv⟩])
  | .lit => (n + 1, [])
  | .member o p =>
      let (n1, vs1) := walk o sv pv (n + 1)
      let (n2, vs2) := walk p sv pv n1
      (n2, vs1 ++ vs2)
  | .assign l r =>
      let (n1, vs1) := walk l sv pv (n + 1)
      let (n2, vs2) := walk r sv pv n1
      (n2, vs1 ++ vs2)
  | .call c => walk c sv pv (n + 1)
  | .objPat1 p => walk p sv pv (n + 1)
  | .objExpr1 p => walk p sv pv (n + 1)
  | .prop k v =>
      let (n1, vs1) := walk k sv pv (n + 1)
      let (n2, vs2) := walk v sv pv n1
      (n2, vs1 ++ vs2)
  | .shorthandProp k =>
      let (n1, vs) := walk k sv pv (n + 1)
      (n1, vs ++ vs)
  | .exprStmt e1 => walk e1 sv pv (n + 1)
  | .varDecl i j =>
      let (n1, vs1) := walk i sv pv (n + 1)
      let (n2, vs2) := walk j sv pv n1
      (n2, vs1 ++ vs2)

/-- One emitted violation record: the reported node and the `name` datum
interpolated into `"Identifier '{{name}}' is not in camel case."`. -/
structure Violation where
  nodeId : Nat
  name : String
  deriving Repr, DecidableEq

/-- The run-scoped mutable state of `create`: the `reported` node list and
the stream of violations handed to `context.report`. -/
structure RuleState where
  reported : List Nat := []
  out : List Violation := []
  deriving Repr, DecidableEq

/-- `report(node)`: emit a violation unless this node was already reported
(`reported.indexOf(node) < 0` guard, then `reported.push(node)`). -/
def report (st : RuleState) (nodeId : Nat) (nodeName : String) : RuleState :=
  if st.reported.contains nodeId then st
  else { reported := st.reported ++ [nodeId], out := st.out ++ [⟨nodeId, nodeName⟩] }

/-- The `Identifier` visitor of `create`, translated branch for branch. -/
def visitIdentifier (cfg : RConfig) (st : RuleState) (c : VisitCtx) : RuleState :=
  let name := checkableName cfg c.nodeName
  let effectiveParent := if c.parent.vtype = "MemberExpression" then c.grandparent else c.parent
  if (match cfg.exceptions with
      | some ex => matchExceptions name ex
      | none => false) then st
  else if c.parent.vtype = "MemberExpression" then
    if cfg.properties = "never" then st
    else if c.parent.objType = "Identifier" && c.parent.objName == c.nodeName
            && isUnderscored name then
      report st c.nodeId c.nodeName
    else if effectiveParent.vtype = "AssignmentExpression" && isUnderscored name
            && (effectiveParent.rightType ≠ "MemberExpression"
                || (effectiveParent.leftType = "MemberExpression"
                    && effectiveParent.leftPropName == c.nodeName)) then
      report st c.nodeId c.nodeName
    else st
  else if c.parent.vtype = "Property" then
    if cfg.properties = "never" then st
    else if c.grandparent.vtype = "ObjectPattern" && c.parent.keyId == c.nodeId
            && c.parent.valueId != c.nodeId then st
    else if isUnderscored name && effectiveParent.vtype ≠ "CallExpression" then
      report st c.nodeId c.nodeName
    else st
  else if isUnderscored name && effectiveParent.vtype ≠ "CallExpression" then
    report st c.nodeId c.nodeName
  else st

/-- Fold the visitor over a list of visits starting from the fresh state. -/
def runVisits (cfg : RConfig) (cs : List VisitCtx) : RuleState :=
  cs.foldl (visitIdentifier cfg) {}

/-- One full run of the rule on a top-level statement: resolve the options,
walk the tree, visit every Identifier, collect the violations. -/
def runRule (o : Options) (stmt : Expr) : List Violation :=
  (runVisits (resolveConfig o) (walk stmt { vtype := "Program" } {} 1).2).out

/-- Bookkeeping invariant of the violation sink: a node has at most one
violation in the output, and none at all unless it is in `reported`. -/
def SinkInv (st : RuleState) : Prop :=
  ∀ i, st.out.countP (fun v => v.nodeId == i) ≤ (if i ∈ st.reported then 1 else 0)

/-- Models the JS regular expression `/.*/` through its `exec` behaviour:
on every string the leftmost match is at index 0 and covers the whole
string. -/
def matchAllExec : String → Option (Nat × Nat) := fun s => some (0, s.length)

/-! ### Shared helper lemmas -/

/-- The underscore trim, seen as Mathlib's drop-from-both-ends. -/
lemma trimUnderscores_eq (s : String) :
    trimUnderscores s
      = String.mk (List.rdropWhile (· = '_') (s.data.dropWhile (· = '_'))) := rfl

/-- After dropping the leading underscore run, dropping from the tail cannot
re-expose a leading underscore, so a second leading drop is the identity. -/
lemma dropWhile_rdropWhile_dropWhile (p : Char → Bool) (l : List Char) :
    List.dropWhile p (List.rdropWhile p (l.dropWhile p))
      = List.rdropWhile p (l.dropWhile p) := by
  rw [List.dropWhile_eq_self_iff]
  intro hl
  have hpre : List.rdropWhile p (l.dropWhile p) <+: l.dropWhile p :=
    List.rdropWhile_prefix p (l.dropWhile p)
  have hlen : 0 < (l.dropWhile p).length := lt_of_lt_of_le hl hpre.length_le
  have h0 : (List.rdropWhile p (l.dropWhile p)).get ⟨0, hl⟩
      = (l.dropWhile p).get ⟨0, hlen⟩ := by
    simpa [List.get_eq_getElem] using hpre.getElem (by exact hl)
  rw [h0]
  exact List.dropWhile_get_zero_not p l hlen

/-- The underscore trim removes nothing from an already-trimmed name. -/
lemma trimUnderscores_idem (s : String) :
    trimUnderscores (trimUnderscores s) = trimUnderscores s := by
  rw [trimUnderscores_eq, trimUnderscores_eq]
  show String.mk (List.rdropWhile _ (List.dropWhile _ (List.rdropWhile _ (List.dropWhile _ s.data)))) = _
  rw [dropWhile_rdropWhile_dropWhile, List.rdropWhile_idempotent]

/-! ### C1 -/

/-- C1: `isUnderscored(name)` holds exactly when `name` contains an
underscore and differs from its uppercase form; `"FOO_BAR"` is accepted,
`"foo_bar"` flagged, `"foo"` accepted. -/
theorem C1_isUnderscored_spec :
    (∀ name : String, isUnderscored name = true ↔ '_' ∈ name.data ∧ name ≠ toUpperCase name)
    ∧ isUnderscored "FOO_BAR" = false
    ∧ isUnderscored "foo_bar" = true
    ∧ isUnderscored "foo" = false := by
  refine ⟨fun name => ?_, by decide, by decide, by decide⟩
  simp [isUnderscored]

/-! ### C4 -/

/-- C4 counterexample: with `allowedPrefixes: ["opt_"]`, stripping
`"opt_opt_id"` once gives `"opt_id"` but stripping a second time gives
`"id"`, so `checkableName` is not idempotent for every configuration. -/
theorem C4_not_idempotent_counterexample :
    checkableName (resolveConfig { allowedPrefixes := some [Matcher.str "opt_"] })
        (checkableName (resolveConfig { allowedPrefixes := some [Matcher.str "opt_"] }) "opt_opt_id")
      ≠ checkableName (resolveConfig { allowedPrefixes := some [Matcher.str "opt_"] }) "opt_opt_id" := by
  decide

/-- C4 (amended): `checkableName` is idempotent for every configuration with
no configured affixes, where it is exactly the underscore trim. -/
theorem C4_checkableName_idem_noAffixes :
    ∀ (cfg : RConfig) (n : String),
      cfg.allowedPrefixes = none → cfg.allowedSuffixes = none →
      checkableName cfg (checkableName cfg n) = checkableName cfg n := by
  intro cfg n h1 h2
  simp only [checkableName, h1, h2]
  exact trimUnderscores_idem n

/-- Witness for C4's amended theorem at the default configuration. -/
theorem C4_checkableName_idem_noAffixes_witness :
    checkableName (resolveConfig {}) (checkableName (resolveConfig {}) "_foo_bar__")
      = checkableName (resolveConfig {}) "_foo_bar__" :=
  C4_checkableName_idem_noAffixes (resolveConfig {}) "_foo_bar__" rfl rfl

/-! ### C6 -/

/-- C6: a literal leading affix strips only when it is a strict,
non-empty-remainder leading part of the value; a literal trailing affix only
when the remainder in front of it is non-empty; hence an affix equal to the
whole name never strips it. -/
theorem C6_literal_affix_guards :
    (∀ value s : String, 0 ≤ startAfterStringPrefix value s ↔
        s.length < value.length ∧ s.data <+: value.data)
    ∧ (∀ value s : String, 0 ≤ endBeforeStringSuffix value s ↔
        s.length < value.length ∧ s.data <:+ value.data)
    ∧ (∀ value : String, startAfterStringPrefix value value = -1
        ∧ endBeforeStringSuffix value value = -1) := by
  refine ⟨fun value s => ?_, fun value s => ?_, fun value => ⟨?_, ?_⟩⟩
  · simp only [startAfterStringPrefix]
    split_ifs with h1 h2
    · constructor
      · intro h; omega
      · rintro ⟨hlt, -⟩; omega
    · constructor
      · intro h; omega
      · rintro ⟨-, hpre⟩
        refine absurd ?_ h2
        show String.mk (value.data.take s.data.length) = s
        rw [← List.prefix_iff_eq_take.mp hpre]
    · rw [not_ne_iff] at h2
      constructor
      · intro _
        exact ⟨by omega, List.prefix_iff_eq_take.mpr (congrArg String.data h2).symm⟩
      · intro _; omega
  · simp only [endBeforeStringSuffix]
    split_ifs with h1 h2
    · constructor
      · intro h; omega
      · rintro ⟨hlt, -⟩; omega
    · constructor
      · intro h; omega
      · rintro ⟨hlt, hsuf⟩
        refine absurd ?_ h2
        obtain ⟨t, ht⟩ := hsuf
        have hlen : value.length = t.length + s.length := by
          show value.data.length = t.length + s.data.length
          rw [← ht, List.length_append]
        show String.mk (value.data.drop (((value.length : Int) - s.length).toNat)) = s
        have htn : (((value.length : Int) - s.length).toNat) = t.length := by omega
        rw [htn, ← ht, List.drop_left]
    · rw [not_ne_iff] at h2
      constructor
      · intro _
        refine ⟨by omega, ?_⟩
        have hd := congrArg String.data h2
        have hdrop : value.data.drop (((value.length : Int) - s.length).toNat) = s.data := hd
        rw [← hdrop]
        exact List.drop_suffix _ _
      · intro _; omega
  · simp [startAfterStringPrefix]
  · simp [endBeforeStringSuffix]

/-! ### C5 -/

/-- C5: `removePrefix`/`removeSuffix` try the matchers in declaration order
and apply exactly the first one that strips; when none strips the value is
returned unchanged. With `allowedPrefixes [\"opt_\", \"o_\"]` the name
`"opt_opt_id"` loses one leading `opt_` only, and `"xopt_camelCase"` is
left alone. -/
theorem C5_first_matching_affix :
    (∀ (value : String) (ms : List Matcher),
        (∀ m ∈ ms, startAfterMatcher value m < 0) → removePrefix value ms = value)
    ∧ (∀ (value : String) (ms₁ : List Matcher) (m : Matcher) (ms₂ : List Matcher),
        (∀ m' ∈ ms₁, startAfterMatcher value m' < 0) → 0 ≤ startAfterMatcher value m →
        removePrefix value (ms₁ ++ m :: ms₂)
          = substrFrom value (startAfterMatcher value m).toNat)
    ∧ (∀ (value : String) (ms : List Matcher),
        (∀ m ∈ ms, endBeforeMatcher value m < 0) → removeSuffix value ms = value)
    ∧ (∀ (value : String) (ms₁ : List Matcher) (m : Matcher) (ms₂ : List Matcher),
        (∀ m' ∈ ms₁, endBeforeMatcher value m' < 0) → 0 ≤ endBeforeMatcher value m →
        removeSuffix value (ms₁ ++ m :: ms₂)
          = substrTo value (endBeforeMatcher value m).toNat)
    ∧ removePrefix "opt_opt_id" [Matcher.str "opt_", Matcher.str "o_"] = "opt_id"
    ∧ removePrefix "xopt_camelCase" [Matcher.str "opt_", Matcher.str "o_"]
        = "xopt_camelCase" := by
  refine ⟨fun value ms => ?_, fun value ms₁ m ms₂ => ?_,
          fun value ms => ?_, fun value ms₁ m ms₂ => ?_, by decide, by decide⟩
  · induction ms with
    | nil => intro _; rfl
    | cons a rest ih =>
      intro h
      simp only [removePrefix]
      rw [if_neg (not_le.mpr (h a (List.mem_cons_self a rest)))]
      exact ih (fun m' hm' => h m' (List.mem_cons_of_mem a hm'))
  · induction ms₁ with
    | nil =>
      intro _ h0
      simp only [List.nil_append, removePrefix]
      rw [if_pos h0]
    | cons a rest ih =>
      intro h h0
      simp only [List.cons_append, removePrefix]
      rw [if_neg (not_le.mpr (h a (List.mem_cons_self a _)))]
      exact ih (fun m' hm' => h m' (List.mem_cons_of_mem a hm')) h0
  · induction ms with
    | nil => intro _; rfl
    | cons a rest ih =>
      intro h
      simp only [removeSuffix]
      rw [if_neg (not_le.mpr (h a (List.mem_cons_self a rest)))]
      exact ih (fun m' hm' => h m' (List.mem_cons_of_mem a hm'))
  · induction ms₁ with
    | nil =>
      intro _ h0
      simp only [List.nil_append, removeSuffix]
      rw [if_pos h0]
    | cons a rest ih =>
      intro h h0
      simp only [List.cons_append, removeSuffix]
      rw [if_neg (not_le.mpr (h a (List.mem_cons_self a _)))]
      exact ih (fun m' hm' => h m' (List.mem_cons_of_mem a hm')) h0

/-- Witness for C5: a failing matcher ahead of a succeeding one strips
exactly the succeeding matcher's match. -/
theorem C5_first_matching_affix_witness :
    removePrefix "opt_opt_id" [Matcher.str "x_", Matcher.str "opt_", Matcher.str "o_"]
      = substrFrom "opt_opt_id" (startAfterMatcher "opt_opt_id" (Matcher.str "opt_")).toNat :=
  C5_first_matching_affix.2.1 "opt_opt_id" [Matcher.str "x_"] (Matcher.str "opt_")
    [Matcher.str "o_"]
    (by intro m' hm'
        rw [List.mem_singleton] at hm'
        subst hm'
        decide)
    (by decide)

/-! ### C2 -/

lemma sinkInv_empty : SinkInv {} := by
  intro i
  simp [SinkInv, List.countP_nil]

lemma sinkInv_report (st : RuleState) (h : SinkInv st) (nid : Nat) (nm : String) :
    SinkInv (report st nid nm) := by
  unfold report
  split_ifs with hc
  · exact h
  · intro i
    have hnid : nid ∉ st.reported := by simpa using hc
    by_cases hi : i = nid
    · subst hi
      have h0 : st.out.countP (fun v => v.nodeId == i) = 0 := by
        have hb := h i
        simpa [hnid] using hb
      simp [List.countP_append, h0]
    · have hb := h i
      simp only [List.countP_append, List.mem_append, List.mem_singleton]
      have hone : List.countP (fun v => v.nodeId == i) ([⟨nid, nm⟩] : List Violation) = 0 := by
        simp [Ne.symm hi]
      rw [hone]
      simpa [hi] using hb

lemma sinkInv_visit (cfg : RConfig) (st : RuleState) (c : VisitCtx) (h : SinkInv st) :
    SinkInv (visitIdentifier cfg st c) := by
  simp only [visitIdentifier]
  split_ifs <;> first
    | exact h
    | exact sinkInv_report _ h _ _

lemma sinkInv_runVisits (cfg : RConfig) (cs : List VisitCtx) :
    SinkInv (runVisits cfg cs) := by
  have hf : ∀ st, SinkInv st → SinkInv (cs.foldl (visitIdentifier cfg) st) := by
    induction cs with
    | nil => exact fun st h => h
    | cons c rest ih => exact fun st h => ih _ (sinkInv_visit cfg st c h)
  exact hf {} sinkInv_empty

/-- C2: over any run (any configuration, any sequence of identifier visits,
including the same node visited repeatedly) the output carries at most one
violation per node; the shorthand `{ category_id }`, whose single identifier
node is visited as both key and value, yields exactly one violation. -/
theorem C2_at_most_once_per_node :
    (∀ (cfg : RConfig) (cs : List VisitCtx) (i : Nat),
        (runVisits cfg cs).out.countP (fun v => v.nodeId == i) ≤ 1)
    ∧ runRule {} (Expr.varDecl (.objPat1 (.shorthandProp (.ident "category_id")))
          (.ident "query"))
        = [⟨4, "category_id"⟩] := by
  constructor
  · intro cfg cs i
    have hb := sinkInv_runVisits cfg cs i
    split_ifs at hb with hmem
    · exact hb
    · omega
  · decide

/-! ### C3 -/

/-- C3 counterexample: the destructuring shorthand `{ category_id }` is not
exempt — under the default policy the run reports its identifier (once), so
it does produce a violation. -/
theorem C3_shorthand_not_exempt_counterexample :
    runRule {} (Expr.varDecl (.objPat1 (.shorthandProp (.ident "category_id")))
        (.ident "query")) ≠ [] := by
  decide

/-- C3 (amended): the occurrence that is exempt regardless of configuration
is an ObjectPattern property key that is *not* also the bound value
(`{ category_id: category }`); the shorthand identifier, which is both key
and value, is checked: reported exactly once under policy `always`, and
skipped only under policy `never`. -/
theorem C3_pattern_key_exempt_amended :
    (∀ (cfg : RConfig) (st : RuleState) (c : VisitCtx),
        c.parent.vtype = "Property" → c.grandparent.vtype = "ObjectPattern" →
        c.parent.keyId = c.nodeId → c.parent.valueId ≠ c.nodeId →
        visitIdentifier cfg st c = st)
    ∧ runRule {} (Expr.varDecl (.objPat1 (.prop (.ident "category_id") (.ident "category")))
          (.ident "query")) = []
    ∧ runRule {} (Expr.varDecl (.objPat1 (.shorthandProp (.ident "category_id")))
          (.ident "query")) = [⟨4, "category_id"⟩]
    ∧ runRule { properties := some "never" }
          (Expr.varDecl (.objPat1 (.shorthandProp (.ident "category_id")))
            (.ident "query")) = [] := by
  refine ⟨?_, by decide, by decide, by decide⟩
  intro cfg st c h1 h2 h3 h4
  have h3' : (c.parent.keyId == c.nodeId) = true := by simpa using h3
  have h4' : (c.parent.valueId != c.nodeId) = true := by simpa using h4
  simp [visitIdentifier, h1, h2, h3', h4']

/-- Witness for C3's amended theorem: a pattern key that is not the value is
left unreported. -/
theorem C3_pattern_key_exempt_amended_witness :
    visitIdentifier (resolveConfig {}) {}
      ⟨4, "category_id",
        { vtype := "Property", keyId := 4, valueId := 5 },
        { vtype := "ObjectPattern" }⟩ = {} :=
  C3_pattern_key_exempt_amended.1 _ _ _ rfl rfl rfl (by decide)

/-! ### C7 -/

/-- C7: under policy `never` an identifier whose parent is a member access
or a property is never checked, and `obj.foo_bar = 1` yields no violation;
under `always` (the default) the same program yields exactly one violation,
on `foo_bar`. -/
theorem C7_property_policy_switch :
    (∀ (cfg : RConfig) (st : RuleState) (c : VisitCtx),
        cfg.properties = "never" →
        (c.parent.vtype = "MemberExpression" ∨ c.parent.vtype = "Property") →
        visitIdentifier cfg st c = st)
    ∧ runRule { properties := some "never" }
        (Expr.exprStmt (.assign (.member (.ident "obj") (.ident "foo_bar")) .lit)) = []
    ∧ runRule { properties := some "always" }
        (Expr.exprStmt (.assign (.member (.ident "obj") (.ident "foo_bar")) .lit))
        = [⟨5, "foo_bar"⟩]
    ∧ runRule {}
        (Expr.exprStmt (.assign (.member (.ident "obj") (.ident "foo_bar")) .lit))
        = [⟨5, "foo_bar"⟩] := by
  refine ⟨?_, by decide, by decide, by decide⟩
  intro cfg st c hp hor
  rcases hor with h | h <;> simp [visitIdentifier, hp, h]

/-- Witness for C7's general part at the member-access identifier of
`obj.foo_bar = 1` under policy `never`. -/
theorem C7_property_policy_switch_witness :
    visitIdentifier (resolveConfig { properties := some "never" }) {}
      ⟨5, "foo_bar",
        { vtype := "MemberExpression", objType := "Identifier", objName := "obj" },
        { vtype := "AssignmentExpression", rightType := "Literal",
          leftType := "MemberExpression", leftPropName := "foo_bar" }⟩ = {} :=
  C7_property_policy_switch.1 _ _ _ rfl (Or.inl rfl)

/-! ### C8 -/

/-- C8: for every style-violating member-property identifier visit under a
non-`never` policy (not matched by an exception, and not the member's own
object name) inside an assignment, the visitor reports it exactly when the
assignment's right-hand side is not a member access (so the occurrence is
the left-hand target) or the left-hand side is a member access carrying
this same property name; otherwise the visit changes nothing. Concretely:
`a.b_c = 1` reports `b_c`; `x = a.b_c` reports nothing; `a.b_c = a.b_c`
reports both sides; `foo.bar_baz = boom.bam_pow` reports only `bar_baz`,
leaving the differently-named right-hand read `bam_pow` unreported. -/
theorem C8_member_assignment_reporting :
    (∀ (cfg : RConfig) (st : RuleState) (c : VisitCtx),
        cfg.properties ≠ "never" →
        (∀ ex, cfg.exceptions = some ex →
          matchExceptions (checkableName cfg c.nodeName) ex = false) →
        c.parent.vtype = "MemberExpression" →
        c.parent.objName ≠ c.nodeName →
        c.grandparent.vtype = "AssignmentExpression" →
        isUnderscored (checkableName cfg c.nodeName) = true →
        visitIdentifier cfg st c =
          (if c.grandparent.rightType ≠ "MemberExpression"
              ∨ (c.grandparent.leftType = "MemberExpression"
                  ∧ c.grandparent.leftPropName = c.nodeName)
           then report st c.nodeId c.nodeName else st))
    ∧ runRule {} (Expr.exprStmt (.assign (.member (.ident "a") (.ident "b_c")) .lit))
      = [⟨5, "b_c"⟩]
    ∧ runRule {} (Expr.exprStmt (.assign (.ident "x")
          (.member (.ident "a") (.ident "b_c")))) = []
    ∧ runRule {} (Expr.exprStmt (.assign (.member (.ident "a") (.ident "b_c"))
          (.member (.ident "a") (.ident "b_c"))))
      = [⟨5, "b_c"⟩, ⟨8, "b_c"⟩]
    ∧ runRule {} (Expr.exprStmt (.assign (.member (.ident "foo") (.ident "bar_baz"))
          (.member (.ident "boom") (.ident "bam_pow"))))
      = [⟨5, "bar_baz"⟩] := by
  refine ⟨?_, by decide, by decide, by decide, by decide⟩
  intro cfg st c hnev hex hpar hobj hgp hund
  have hobj' : (c.parent.objName == c.nodeName) = false := by simpa using hobj
  by_cases hP : c.grandparent.rightType ≠ "MemberExpression"
      ∨ (c.grandparent.leftType = "MemberExpression"
          ∧ c.grandparent.leftPropName = c.nodeName)
  · rw [if_pos hP]
    cases hE : cfg.exceptions with
    | none =>
      rcases hP with hr | ⟨hl, hn⟩
      · simp [visitIdentifier, hE, hpar, hnev, hobj', hgp, hund, hr]
      · simp [visitIdentifier, hE, hpar, hnev, hobj', hgp, hund, hl, hn]
    | some ex =>
      have hm := hex ex hE
      rcases hP with hr | ⟨hl, hn⟩
      · simp [visitIdentifier, hE, hm, hpar, hnev, hobj', hgp, hund, hr]
      · simp [visitIdentifier, hE, hm, hpar, hnev, hobj', hgp, hund, hl, hn]
  · rw [if_neg hP]
    push_neg at hP
    obtain ⟨hr, hln⟩ := hP
    by_cases hl : c.grandparent.leftType = "MemberExpression"
    · have hn' : (c.grandparent.leftPropName == c.nodeName) = false := by
        simpa using hln hl
      cases hE : cfg.exceptions with
      | none => simp [visitIdentifier, hE, hpar, hnev, hobj', hgp, hund, hr, hl, hn']
      | some ex =>
        have hm := hex ex hE
        simp [visitIdentifier, hE, hm, hpar, hnev, hobj', hgp, hund, hr, hl, hn']
    · cases hE : cfg.exceptions with
      | none => simp [visitIdentifier, hE, hpar, hnev, hobj', hgp, hund, hr, hl]
      | some ex =>
        have hm := hex ex hE
        simp [visitIdentifier, hE, hm, hpar, hnev, hobj', hgp, hund, hr, hl]

/-- Witness for C8's general part: the right-hand read `bam_pow` of
`foo.bar_baz = boom.bam_pow` has a member-access left-hand side with a
*different* property name and is left unreported. -/
theorem C8_member_assignment_reporting_witness :
    visitIdentifier (resolveConfig {}) {}
      ⟨8, "bam_pow",
        { vtype := "MemberExpression", objType := "Identifier", objName := "boom" },
        { vtype := "AssignmentExpression", rightType := "MemberExpression",
          leftType := "MemberExpression", leftPropName := "bar_baz" }⟩ = {} := by
  have h := C8_member_assignment_reporting.1 (resolveConfig {}) {}
      ⟨8, "bam_pow",
        { vtype := "MemberExpression", objType := "Identifier", objName := "boom" },
        { vtype := "AssignmentExpression", rightType := "MemberExpression",
          leftType := "MemberExpression", leftPropName := "bar_baz" }⟩
      (by decide) (by intro ex hex; exact Option.noConfusion hex) rfl (by decide) rfl
      (by decide)
  rw [h, if_neg (by decide)]

/-! ### C9 -/

/-- C9: a `properties` option that is neither `"always"` nor `"never"` is
silently normalised to `"always"` at configuration-resolution time, before
any identifier is visited, and the run behaves exactly as under an explicit
`"always"` policy on every input. -/
theorem C9_invalid_policy_normalized :
    ∀ (o : Options) (s : String) (stmt : Expr),
      o.properties = some s → s ≠ "always" → s ≠ "never" →
      resolveConfig o = resolveConfig { o with properties := some "always" }
      ∧ runRule o stmt = runRule { o with properties := some "always" } stmt := by
  intro o s stmt hp h1 h2
  have hcfg : resolveConfig o = resolveConfig { o with properties := some "always" } := by
    unfold resolveConfig
    rw [hp]
    simp [h1, h2]
  refine ⟨hcfg, ?_⟩
  unfold runRule
  rw [hcfg]

/-- Witness for C9 at the unrecognised policy value `"sometimes"`. -/
theorem C9_invalid_policy_normalized_witness :
    resolveConfig { properties := some "sometimes" }
        = resolveConfig { properties := some "always" }
    ∧ runRule { properties := some "sometimes" }
          (Expr.exprStmt (.assign (.ident "foo_bar") .lit))
        = runRule { properties := some "always" }
          (Expr.exprStmt (.assign (.ident "foo_bar") .lit)) :=
  C9_invalid_policy_normalized { properties := some "sometimes" } "sometimes"
    (Expr.exprStmt (.assign (.ident "foo_bar") .lit)) rfl (by decide) (by decide)

/-! ### C10 -/

/-- C10: regexp affix stripping has no non-empty-remainder guard — a regexp
whose match covers the whole trimmed name strips it entirely, leaving an
empty checkable name — and an occurrence whose checkable name is empty is
never reported. -/
theorem C10_regex_strips_everything :
    checkableName (resolveConfig { allowedPrefixes := some [Matcher.regex matchAllExec] })
        "foo_bar" = ""
    ∧ removeSuffix "foo_bar" [Matcher.regex matchAllExec] = ""
    ∧ (∀ (cfg : RConfig) (st : RuleState) (c : VisitCtx),
        checkableName cfg c.nodeName = "" → visitIdentifier cfg st c = st) := by
  refine ⟨rfl, rfl, ?_⟩
  intro cfg st c h
  simp [visitIdentifier, h, (by decide : isUnderscored "" = false)]

/-- Witness for C10: an all-underscore name trims to the empty checkable
name and is left unreported. -/
theorem C10_regex_strips_everything_witness :
    visitIdentifier (resolveConfig {}) {}
      ⟨3, "____", { vtype := "ExpressionStatement" }, { vtype := "Program" }⟩ = {} :=
  C10_regex_strips_everything.2.2 _ _ _ rfl

end Camelcase
